import Mathlib

/-!
Verification of the FIFO capital-gains calculator `cgcalc.py`.

Numbers are modelled as exact rationals.  Python's float `round(x, 2)` is
modelled as round-half-to-even on rationals (`pyRound`); the binary
representation of floats is out of scope.  Python exceptions are modelled by
`PyError`, and fallible functions return `Except PyError _`.
-/

deriving instance DecidableEq for Except

/-- Models the Python exceptions the program can raise. -/
inductive PyError
  | fileNotFoundError
  | stopIteration
  | valueError
  | zeroDivisionError
  deriving DecidableEq

/-- Models the immutable `Trade` class of `cgcalc.py` (one CSV row). -/
structure Trade where
  stockType_ : String
  units_ : ℚ
  isBuy_ : Bool
  value_ : ℚ
  deriving DecidableEq

/-- Python `round` to the nearest integer, ties to even (banker's rounding). -/
def pyRound (x : ℚ) : ℤ :=
  if x - ⌊x⌋ < 1/2 then ⌊x⌋
  else if 1/2 < x - ⌊x⌋ then ⌊x⌋ + 1
  else if ⌊x⌋ % 2 = 0 then ⌊x⌋ else ⌊x⌋ + 1

/-- Python `round(x, 2)`. -/
def round2 (x : ℚ) : ℚ := (pyRound (x * 100) : ℚ) / 100

/-- One holding lot `(units, price per unit)`, an element of the deques of
`holdings` in `calculate_capital_gains`. -/
abbrev Lot : Type := ℚ × ℚ

/-- Models `holdings : dict[str, deque[tuple[float, float]]]` as an
insertion-ordered association list (Python dicts preserve insertion order). -/
abbrev Holdings : Type := List (String × List Lot)

/-- Dict lookup `holdings[symbol]`. -/
def getQueue : Holdings → String → Option (List Lot)
  | [], _ => none
  | (k, q) :: rest, s => if k = s then some q else getQueue rest s

/-- Models `if symbol not in holdings: holdings[symbol] = deque()`; a new key is
appended at the end, existing keys are untouched. -/
def ensureKey (h : Holdings) (s : String) : Holdings :=
  if (getQueue h s).isSome then h else h ++ [(s, [])]

/-- In-place replacement of the deque stored at key `s`. -/
def modifyQueue : Holdings → String → (List Lot → List Lot) → Holdings
  | [], _, _ => []
  | (k, q) :: rest, s, f => if k = s then (k, f q) :: rest else (k, q) :: modifyQueue rest s f

/-- The `while units_to_sell > 0 and holdings[symbol]:` loop of
`calculate_capital_gains` (cgcalc.py lines 113-131), acting on the symbol's
deque and the two accumulators; returns the final deque, `net_gains` and
`total_gains`. -/
def sellLoop (sell_price_per_unit : ℚ) : ℚ → List Lot → ℚ → ℚ → List Lot × ℚ × ℚ
  | _, [], net, tot => ([], net, tot)
  | units_to_sell, (buy_units, buy_price_per_unit) :: rest, net, tot =>
    if units_to_sell > 0 then
      if buy_units ≤ units_to_sell then
        let gain := round2 ((sell_price_per_unit - buy_price_per_unit) * buy_units)
        sellLoop sell_price_per_unit (units_to_sell - buy_units) rest (net + gain)
          (if gain ≥ 0 then tot + gain else tot)
      else
        let gain := round2 ((sell_price_per_unit - buy_price_per_unit) * units_to_sell)
        ((buy_units - units_to_sell, buy_price_per_unit) :: rest, net + gain,
          if gain ≥ 0 then tot + gain else tot)
    else ((buy_units, buy_price_per_unit) :: rest, net, tot)

/-- The engine's loop state: the holdings ledger and the two accumulators. -/
structure CGState where
  holdings : Holdings
  total_gains : ℚ
  net_gains : ℚ
  deriving DecidableEq

/-- One iteration of the `for trade in trades` loop of `calculate_capital_gains`
(cgcalc.py lines 101-131).  A trade with `units_ = 0` makes the float division
`trade.value_ / trade.units_` raise `ZeroDivisionError` in Python. -/
def processTrade (st : CGState) (trade : Trade) : Except PyError CGState :=
  let symbol := trade.stockType_
  let holdings := ensureKey st.holdings symbol
  if trade.isBuy_ then
    if trade.units_ = 0 then .error .zeroDivisionError
    else
      let price_per_unit := round2 (trade.value_ / trade.units_)
      .ok ⟨modifyQueue holdings symbol (fun q => q ++ [(trade.units_, price_per_unit)]),
           st.total_gains, st.net_gains⟩
  else
    if trade.units_ = 0 then .error .zeroDivisionError
    else
      let sell_price_per_unit := round2 (trade.value_ / trade.units_)
      let r := sellLoop sell_price_per_unit trade.units_ ((getQueue holdings symbol).getD [])
        st.net_gains st.total_gains
      .ok ⟨modifyQueue holdings symbol (fun _ => r.1), r.2.2, r.2.1⟩

/-- Runs the `for trade in trades` loop from a given state. -/
def runTrades : CGState → List Trade → Except PyError CGState
  | st, [] => .ok st
  | st, t :: ts =>
    match processTrade st t with
    | .ok st' => runTrades st' ts
    | .error e => .error e

/-- Models `calculate_capital_gains` (cgcalc.py lines 87-133): returns
`(net_gains, total_gains)` rounded to 2 decimal places, or the Python
exception the call raises. -/
def calculate_capital_gains (trades : List Trade) : Except PyError (ℚ × ℚ) :=
  match runTrades ⟨[], 0, 0⟩ trades with
  | .ok st => .ok (round2 st.net_gains, round2 st.total_gains)
  | .error e => .error e

/-- Second definition written from the spec's words (spec section 4.1, step 4),
for the refinement claim: the sell loop described as "Peek the oldest lot;
`consumed = min(lotUnits, remainingToSell)`;
`gain = round((sellUnitPrice - lotCost) * consumed, 2)`; if `consumed == lotUnits`
remove the lot, else replace it with `(lotUnits - consumed, lotCost)`; decrement
`remainingToSell` by `consumed`", collecting the per-lot gains in order.  In the
replace branch `remainingToSell` becomes `remainingToSell - consumed = 0`, so the
loop guard fails and the loop exits with just that one gain. -/
def specSellLoop (sellUnitPrice : ℚ) : ℚ → List Lot → List Lot × List ℚ
  | _, [] => ([], [])
  | remainingToSell, (lotUnits, lotCost) :: rest =>
    if remainingToSell > 0 then
      let consumed := min lotUnits remainingToSell
      let gain := round2 ((sellUnitPrice - lotCost) * consumed)
      if consumed = lotUnits then
        let r := specSellLoop sellUnitPrice (remainingToSell - consumed) rest
        (r.1, gain :: r.2)
      else
        ((lotUnits - consumed, lotCost) :: rest, [gain])
    else ((lotUnits, lotCost) :: rest, [])

/-- Second definition written from the spec's words (spec section 4.1, steps 3-4):
one trade processed against the Holdings Ledger.  A buy appends the lot
`(units, round(value/units, 2))` at the back of the symbol's queue; a sell
consumes lots from the front via `specSellLoop`, returning the per-lot gains; a
trade with `units = 0` is the `InvalidTrade` failure of spec sections 4.1 and 7. -/
def specStep (holdings : Holdings) (trade : Trade) : Except PyError (Holdings × List ℚ) :=
  if trade.units_ = 0 then .error .zeroDivisionError
  else
    let h := ensureKey holdings trade.stockType_
    if trade.isBuy_ then
      let unitCost := round2 (trade.value_ / trade.units_)
      .ok (modifyQueue h trade.stockType_ (fun q => q ++ [(trade.units_, unitCost)]), [])
    else
      let sellUnitPrice := round2 (trade.value_ / trade.units_)
      let r := specSellLoop sellUnitPrice trade.units_ ((getQueue h trade.stockType_).getD [])
      .ok (modifyQueue h trade.stockType_ (fun _ => r.1), r.2)

/-- Second definition written from the spec's words: processing the trades in
input order over the ledger, returning the final ledger together with the list
of all per-lot gains, each rounded at its own step, in the order they occur. -/
def specPerLotGains : List Trade → Holdings → Except PyError (Holdings × List ℚ)
  | [], h => .ok (h, [])
  | t :: ts, h =>
    match specStep h t with
    | .error e => .error e
    | .ok r₁ =>
      match specPerLotGains ts r₁.1 with
      | .error e => .error e
      | .ok r₂ => .ok (r₂.1, r₁.2 ++ r₂.2)

/-- The sum of the non-negative entries of a list of per-lot gains. -/
def nonnegSum (gs : List ℚ) : ℚ := (gs.filter (fun g => decide ((0:ℚ) ≤ g))).sum

/-- Models the Python substring test `key in hay`. -/
def strContains (hay key : String) : Bool :=
  hay.toList.tails.any (fun t => key.toList.isPrefixOf t)

/-- Models `find_col` (cgcalc.py lines 30-43): returns the index of the first
heading cell that contains `key` as a substring, and raises `ValueError` when no
cell does. -/
def find_col (key : String) : List String → Except PyError Nat
  | [] => .error .valueError
  | x :: rest => if strContains x key then .ok 0 else (find_col key rest).map (· + 1)

/-- One print statement of the `__main__` block, as an observable event. -/
inductive PrintEvent
  | netGains (x : ℚ)
  | totalGains (x : ℚ)
  | diagnostic (e : PyError)
  deriving DecidableEq

/-- The exception classes caught by the `except` clause of the `__main__` block
(cgcalc.py line 146): `FileNotFoundError`, `StopIteration`, `ValueError`. -/
def caught : PyError → Bool
  | .fileNotFoundError => true
  | .stopIteration => true
  | .valueError => true
  | .zeroDivisionError => false

/-- Models the `__main__` block (cgcalc.py lines 142-147) as a function of the
outcome of `lex_csv` (which performs the file I/O): on success it prints the two
gains, on a caught exception it prints just the diagnostic, and an uncaught
exception propagates (the program aborts with a traceback). -/
def cli_main (lexResult : Except PyError (List Trade)) : Except PyError (List PrintEvent) :=
  match (match lexResult with
         | .ok trades => calculate_capital_gains trades
         | .error e => .error e) with
  | .ok (net, total) => .ok [.netGains net, .totalGains total]
  | .error e => if caught e then .ok [.diagnostic e] else .error e

/-- One iteration of the body of the `while units_to_sell > 0 and holdings[symbol]:`
loop (cgcalc.py lines 114-131), taken when the loop guard holds: returns the
updated `(units_to_sell, deque, net_gains, total_gains)`. -/
def sellStep (sell_price_per_unit u : ℚ) (q : List Lot) (net tot : ℚ) : ℚ × List Lot × ℚ × ℚ :=
  match q with
  | [] => (u, [], net, tot)
  | (buy_units, buy_price_per_unit) :: rest =>
    if buy_units ≤ u then
      let gain := round2 ((sell_price_per_unit - buy_price_per_unit) * buy_units)
      (u - buy_units, rest, net + gain, if gain ≥ 0 then tot + gain else tot)
    else
      let gain := round2 ((sell_price_per_unit - buy_price_per_unit) * u)
      (0, (buy_units - u, buy_price_per_unit) :: rest, net + gain,
        if gain ≥ 0 then tot + gain else tot)

theorem nonnegSum_nil : nonnegSum [] = 0 := rfl

theorem nonnegSum_cons (g : ℚ) (gs : List ℚ) :
    nonnegSum (g :: gs) = if 0 ≤ g then g + nonnegSum gs else nonnegSum gs := by
  by_cases h : (0:ℚ) ≤ g <;> simp [nonnegSum, List.filter_cons, h]

theorem nonnegSum_append (a b : List ℚ) :
    nonnegSum (a ++ b) = nonnegSum a + nonnegSum b := by
  simp [nonnegSum, List.filter_append]

theorem nonnegSum_nonneg (gs : List ℚ) : 0 ≤ nonnegSum gs := by
  refine List.sum_nonneg ?_
  intro g hg
  simp only [nonnegSum, List.mem_filter, decide_eq_true_eq] at hg
  exact hg.2

theorem sum_le_nonnegSum (gs : List ℚ) : gs.sum ≤ nonnegSum gs := by
  induction gs with
  | nil => simp [nonnegSum]
  | cons g gs ih =>
    rw [List.sum_cons, nonnegSum_cons]
    by_cases h : (0:ℚ) ≤ g
    · rw [if_pos h]; linarith
    · rw [if_neg h]; have := lt_of_not_le h; linarith

theorem pyRound_ge_floor (x : ℚ) : ⌊x⌋ ≤ pyRound x := by
  unfold pyRound; split_ifs <;> omega

theorem pyRound_le_floor_add_one (x : ℚ) : pyRound x ≤ ⌊x⌋ + 1 := by
  unfold pyRound; split_ifs <;> omega

theorem pyRound_mono {x y : ℚ} (hxy : x ≤ y) : pyRound x ≤ pyRound y := by
  rcases lt_or_eq_of_le (Int.floor_mono hxy) with hf | hf
  · calc pyRound x ≤ ⌊x⌋ + 1 := pyRound_le_floor_add_one x
      _ ≤ ⌊y⌋ := by omega
      _ ≤ pyRound y := pyRound_ge_floor y
  · unfold pyRound
    rw [← hf]
    split_ifs <;> first | omega | linarith

theorem round2_zero : round2 0 = 0 := by
  norm_num [round2, pyRound]

theorem round2_mono {x y : ℚ} (hxy : x ≤ y) : round2 x ≤ round2 y := by
  unfold round2
  have h := pyRound_mono (by linarith : x * 100 ≤ y * 100)
  have : (pyRound (x * 100) : ℚ) ≤ (pyRound (y * 100) : ℚ) := Int.cast_le.mpr h
  linarith

theorem round2_nonneg {x : ℚ} (hx : 0 ≤ x) : 0 ≤ round2 x := by
  have := round2_mono hx
  rw [round2_zero] at this
  exact this

theorem sellLoop_eq_spec (sp : ℚ) (q : List Lot) : ∀ (u net tot : ℚ),
    sellLoop sp u q net tot =
      ((specSellLoop sp u q).1, net + (specSellLoop sp u q).2.sum,
        tot + nonnegSum (specSellLoop sp u q).2) := by
  induction q with
  | nil => intro u net tot; simp [sellLoop, specSellLoop, nonnegSum]
  | cons lot rest ih =>
    obtain ⟨bu, bp⟩ := lot
    intro u net tot
    by_cases hu : u > 0
    · by_cases hle : bu ≤ u
      · have hmin : min bu u = bu := min_eq_left hle
        rw [sellLoop, specSellLoop, if_pos hu, if_pos hu]
        simp only [hmin, eq_self_iff_true, if_true, if_pos hle]
        rw [ih]
        simp only [List.sum_cons, nonnegSum_cons, ge_iff_le, Prod.mk.injEq]
        by_cases hg : (0:ℚ) ≤ round2 ((sp - bp) * bu)
        · simp only [if_pos hg]
          exact ⟨trivial, by ring_nf, by ring_nf⟩
        · simp only [if_neg hg]
          exact ⟨trivial, by ring_nf, by ring_nf⟩
      · have hlt : u < bu := lt_of_not_le hle
        have hmin : min bu u = u := min_eq_right hlt.le
        have hne : ¬ (u = bu) := ne_of_lt hlt
        rw [sellLoop, specSellLoop, if_pos hu, if_pos hu]
        simp only [hmin, if_neg hne, if_neg hle, List.sum_cons, List.sum_nil, nonnegSum_cons,
          nonnegSum_nil, ge_iff_le, Prod.mk.injEq]
        by_cases hg : (0:ℚ) ≤ round2 ((sp - bp) * u)
        · simp only [if_pos hg]; exact ⟨trivial, by ring_nf, by ring_nf⟩
        · simp only [if_neg hg]; exact ⟨trivial, by ring_nf, by ring_nf⟩
    · rw [sellLoop, specSellLoop, if_neg hu, if_neg hu]
      simp [nonnegSum]

theorem processTrade_eq_spec (st : CGState) (t : Trade) :
    processTrade st t = (specStep st.holdings t).map
      (fun r => ⟨r.1, st.total_gains + nonnegSum r.2, st.net_gains + r.2.sum⟩) := by
  by_cases h0 : t.units_ = 0
  · cases hb : t.isBuy_ <;> simp [processTrade, specStep, h0, hb, Except.map]
  · cases hb : t.isBuy_
    · -- sell branch
      simp only [processTrade, specStep, h0, hb, Bool.false_eq_true, if_false, Except.map]
      rw [sellLoop_eq_spec]
    · -- buy branch
      simp [processTrade, specStep, h0, hb, Except.map, nonnegSum]

theorem runTrades_eq_spec : ∀ (ts : List Trade) (h : Holdings) (net tot : ℚ),
    runTrades ⟨h, tot, net⟩ ts = (specPerLotGains ts h).map
      (fun r => ⟨r.1, tot + nonnegSum r.2, net + r.2.sum⟩) := by
  intro ts
  induction ts with
  | nil =>
    intro h net tot
    simp [runTrades, specPerLotGains, Except.map, nonnegSum]
  | cons t ts ih =>
    intro h net tot
    rw [runTrades, processTrade_eq_spec]
    cases hs : specStep h t with
    | error e => simp [specPerLotGains, hs, Except.map]
    | ok r₁ =>
      simp only [specPerLotGains, hs, Except.map]
      rw [ih]
      cases hr : specPerLotGains ts r₁.1 with
      | error e => simp [hr, Except.map]
      | ok r₂ =>
        simp only [hr, Except.map, nonnegSum_append, List.sum_append,
          Except.ok.injEq, CGState.mk.injEq]
        refine ⟨trivial, by ring_nf, by ring_nf⟩

/-- C1: `calculate_capital_gains` implements FIFO lot matching per symbol exactly
as the spec describes it: a buy appends the lot `(units, round(value/units, 2))`
at the back of the symbol's queue; a sell computes
`sellUnitPrice = round(value/units, 2)` and consumes lots from the front, taking
`consumed = min(lotUnits, remainingToSell)` and
`gain = round((sellUnitPrice - lotCost) * consumed, 2)` per lot; and the returned
pair is `(round(netGains, 2), round(totalGains, 2))` where `netGains` is the sum
of all per-lot signed gains, each rounded at its own step, and `totalGains` is
the sum of only the non-negative per-lot gains (`specPerLotGains` is that
spec-side algorithm, returning the stream of per-lot gains). -/
theorem calculate_capital_gains_fifo_trace (trades : List Trade) :
    calculate_capital_gains trades = (specPerLotGains trades []).map
      (fun r => (round2 r.2.sum, round2 (nonnegSum r.2))) := by
  unfold calculate_capital_gains
  rw [runTrades_eq_spec]
  cases h : specPerLotGains trades [] with
  | error e => simp [Except.map]
  | ok r => simp [Except.map]

theorem processTrade_zero (st : CGState) (t : Trade) (h : t.units_ = 0) :
    processTrade st t = .error .zeroDivisionError := by
  cases hb : t.isBuy_ <;> simp [processTrade, h, hb]

theorem processTrade_ok (st : CGState) (t : Trade) (h : t.units_ ≠ 0) :
    ∃ st', processTrade st t = .ok st' := by
  cases hb : t.isBuy_ <;> simp [processTrade, h, hb]

theorem runTrades_zero : ∀ (ts : List Trade) (st : CGState), (∃ t ∈ ts, t.units_ = 0) →
    runTrades st ts = .error .zeroDivisionError := by
  intro ts
  induction ts with
  | nil => intro st h; simp at h
  | cons t ts ih =>
    intro st h
    by_cases h0 : t.units_ = 0
    · rw [runTrades, processTrade_zero st t h0]
    · obtain ⟨t', ht', hu⟩ := h
      rcases List.mem_cons.mp ht' with rfl | hmem
      · exact absurd hu h0
      · obtain ⟨st', hst'⟩ := processTrade_ok st t h0
        rw [runTrades, hst']
        exact ih st' ⟨t', hmem, hu⟩

theorem runTrades_ok : ∀ (ts : List Trade) (st : CGState), (∀ t ∈ ts, t.units_ ≠ 0) →
    ∃ st', runTrades st ts = .ok st' := by
  intro ts
  induction ts with
  | nil => intro st _; exact ⟨st, rfl⟩
  | cons t ts ih =>
    intro st h
    obtain ⟨st1, h1⟩ := processTrade_ok st t (h t (List.mem_cons_self t ts))
    obtain ⟨st2, h2⟩ := ih st1 (fun t' ht' => h t' (List.mem_cons_of_mem t ht'))
    exact ⟨st2, by rw [runTrades, h1]; exact h2⟩

theorem sellLoop_oversell (sp : ℚ) : ∀ (q : List Lot) (u u' net tot : ℚ),
    (∀ lot ∈ q, 0 < lot.1) → (q.map Prod.fst).sum ≤ u → (q.map Prod.fst).sum ≤ u' →
    sellLoop sp u q net tot = sellLoop sp u' q net tot ∧ (sellLoop sp u q net tot).1 = [] := by
  intro q
  induction q with
  | nil => intro u u' net tot _ _ _; simp [sellLoop]
  | cons lot rest ih =>
    obtain ⟨bu, bp⟩ := lot
    intro u u' net tot hpos hu hu'
    have hbu : 0 < bu := hpos (bu, bp) (List.mem_cons_self _ _)
    have hrest : 0 ≤ (rest.map Prod.fst).sum := by
      refine List.sum_nonneg ?_
      intro x hx
      obtain ⟨l, hl, rfl⟩ := List.mem_map.mp hx
      exact le_of_lt (hpos l (List.mem_cons_of_mem _ hl))
    simp only [List.map_cons, List.sum_cons] at hu hu'
    have hle : bu ≤ u := by linarith
    have hle' : bu ≤ u' := by linarith
    have hu0 : u > 0 := by linarith
    have hu0' : u' > 0 := by linarith
    rw [sellLoop, sellLoop, if_pos hu0, if_pos hu0', if_pos hle, if_pos hle']
    exact ih (u - bu) (u' - bu) _ _ (fun l hl => hpos l (List.mem_cons_of_mem _ hl))
      (by linarith) (by linarith)

theorem getQueue_isSome_ensureKey {h : Holdings} {s : String}
    (hx : (getQueue h s).isSome) : ensureKey h s = h := by
  simp [ensureKey, hx]

theorem getQueue_modifyQueue : ∀ (h : Holdings) (s : String) (f : List Lot → List Lot)
    (q : List Lot), getQueue h s = some q → getQueue (modifyQueue h s f) s = some (f q) := by
  intro h
  induction h with
  | nil => intro s f q hq; simp [getQueue] at hq
  | cons kv rest ih =>
    obtain ⟨k, v⟩ := kv
    intro s f q hq
    by_cases hk : k = s
    · subst hk
      simp only [getQueue, eq_self_iff_true, if_true, Option.some.injEq] at hq
      subst hq
      simp [modifyQueue, getQueue]
    · simp only [getQueue, if_neg hk] at hq
      simp only [modifyQueue, if_neg hk, getQueue]
      exact ih s f q hq

/-- C2: the two worked examples: buying 10 units of "AAA" at total value 100 and
selling 10 units at total value 150 yields net = 50.00 and total = 50.00; buying
10 units at total 100 and selling 5 units at total 40 yields net = -10.00 and
total = 0.00 (the loss is excluded from total). -/
theorem calculate_capital_gains_examples :
    calculate_capital_gains [⟨"AAA", 10, true, 100⟩, ⟨"AAA", 10, false, 150⟩] = .ok (50, 50) ∧
    calculate_capital_gains [⟨"BBB", 10, true, 100⟩, ⟨"BBB", 5, false, 40⟩] = .ok (-10, 0) := by
  constructor <;>
    norm_num [calculate_capital_gains, runTrades, processTrade, ensureKey, getQueue,
      modifyQueue, sellLoop, round2, pyRound]

/-- C3: any trade with `units == 0` makes the engine fail with an error that is
signalled to the caller (Python raises `ZeroDivisionError` at the per-unit price
division, the realization of the spec's `InvalidTrade` condition), rather than
silently computing an infinite, NaN or otherwise undefined per-unit price. -/
theorem zero_units_signals_error (trades : List Trade) (t : Trade)
    (hmem : t ∈ trades) (h0 : t.units_ = 0) :
    calculate_capital_gains trades = .error .zeroDivisionError := by
  unfold calculate_capital_gains
  rw [runTrades_zero trades ⟨[], 0, 0⟩ ⟨t, hmem, h0⟩]

theorem zero_units_signals_error_witness :
    calculate_capital_gains [⟨"AAA", 0, true, 100⟩] = .error .zeroDivisionError :=
  zero_units_signals_error [⟨"AAA", 0, true, 100⟩] ⟨"AAA", 0, true, 100⟩
    (List.mem_singleton.mpr rfl) rfl

/-- C4: overselling raises no error: when no trade has zero units the engine
always returns a result; the sell-matching loop on an emptied queue stops and
leaves both accumulators unchanged; and a sell of `u` units when only
`(q.map Prod.fst).sum ≤ u` units are held produces the same gains and the same
empty queue as any other oversized sell `u'`, so the excess units contribute
nothing to `netGains` or `totalGains`. -/
theorem oversell_no_error :
    (∀ trades, (∀ t ∈ trades, t.units_ ≠ 0) → ∃ p, calculate_capital_gains trades = .ok p) ∧
    (∀ (sp u net tot : ℚ), sellLoop sp u [] net tot = ([], net, tot)) ∧
    (∀ (sp : ℚ) (q : List Lot) (u u' net tot : ℚ), (∀ lot ∈ q, 0 < lot.1) →
      (q.map Prod.fst).sum ≤ u → (q.map Prod.fst).sum ≤ u' →
      sellLoop sp u q net tot = sellLoop sp u' q net tot ∧
        (sellLoop sp u q net tot).1 = []) := by
  refine ⟨?_, ?_, ?_⟩
  · intro trades h
    obtain ⟨st', hst'⟩ := runTrades_ok trades ⟨[], 0, 0⟩ h
    refine ⟨(round2 st'.net_gains, round2 st'.total_gains), ?_⟩
    unfold calculate_capital_gains
    rw [hst']
  · intro sp u net tot
    rw [sellLoop]
  · intro sp q u u' net tot hpos hu hu'
    exact sellLoop_oversell sp q u u' net tot hpos hu hu'

theorem oversell_no_error_witness :
    (∃ p, calculate_capital_gains [⟨"AAA", 10, true, 100⟩, ⟨"AAA", 15, false, 150⟩] = .ok p) ∧
    sellLoop 10 5 [] 1 2 = ([], 1, 2) ∧
    (sellLoop 10 15 [((10:ℚ), 10)] 0 0 = sellLoop 10 20 [((10:ℚ), 10)] 0 0 ∧
      (sellLoop 10 15 [((10:ℚ), 10)] 0 0).1 = []) :=
  ⟨oversell_no_error.1 [⟨"AAA", 10, true, 100⟩, ⟨"AAA", 15, false, 150⟩] (by norm_num),
   oversell_no_error.2.1 10 5 1 2,
   oversell_no_error.2.2 10 [((10:ℚ), 10)] 15 20 0 0 (by norm_num) (by norm_num) (by norm_num)⟩

/-- C5: a sell that consumes strictly fewer units than the oldest lot holds
leaves `(originalUnits - soldUnits, originalCost)` at the front of that symbol's
queue: the unit count drops by exactly the units sold, the per-unit cost basis
is unchanged, and the rest of the queue is untouched. -/
theorem small_sell_front_lot (st : CGState) (t : Trade) (lu lc : ℚ) (rest : List Lot)
    (hb : t.isBuy_ = false) (h0 : 0 < t.units_) (hlt : t.units_ < lu)
    (hq : getQueue st.holdings t.stockType_ = some ((lu, lc) :: rest)) :
    (processTrade st t).toOption.map (fun st' => getQueue st'.holdings t.stockType_) =
      some (some ((lu - t.units_, lc) :: rest)) := by
  have hsome : (getQueue st.holdings t.stockType_).isSome := by rw [hq]; rfl
  have hne : t.units_ ≠ 0 := ne_of_gt h0
  have hnle : ¬ (lu ≤ t.units_) := not_le_of_lt hlt
  simp only [processTrade, hb, Bool.false_eq_true, if_false, if_neg hne,
    getQueue_isSome_ensureKey hsome, hq, Option.getD_some]
  rw [sellLoop, if_pos h0, if_neg hnle]
  simp only [Except.toOption, Option.map_some]
  exact congrArg some (getQueue_modifyQueue st.holdings t.stockType_ _ _ hq)

theorem small_sell_front_lot_witness :
    (processTrade ⟨[("AAA", [((10:ℚ), 10)])], 0, 0⟩ ⟨"AAA", 4, false, 60⟩).toOption.map
      (fun st' => getQueue st'.holdings "AAA") = some (some [((10:ℚ) - 4, 10)]) :=
  small_sell_front_lot ⟨[("AAA", [((10:ℚ), 10)])], 0, 0⟩ ⟨"AAA", 4, false, 60⟩ 10 10 []
    rfl (by norm_num) (by norm_num) (by simp [getQueue])

/-- C6: called with an empty trade sequence, `calculate_capital_gains` returns
exactly `(0.0, 0.0)`. -/
theorem empty_trades_zero : calculate_capital_gains [] = .ok (0, 0) := by
  norm_num [calculate_capital_gains, runTrades, round2, pyRound]

/-- C7: the sell-matching loop terminates on every input: whenever its guard
holds (`units_to_sell > 0` and a non-empty queue), one iteration of the loop
body (`sellStep`) strictly decreases `units_to_sell` or the length of the
symbol's lot queue, and `sellLoop` is exactly the iteration of `sellStep`, so
the computation is bounded by the input size. -/
theorem sell_loop_measure_decreases (sp u : ℚ) (q : List Lot) (net tot : ℚ)
    (hu : 0 < u) (hq : q ≠ []) :
    ((sellStep sp u q net tot).1 < u ∨ (sellStep sp u q net tot).2.1.length < q.length) ∧
    sellLoop sp u q net tot =
      sellLoop sp (sellStep sp u q net tot).1 (sellStep sp u q net tot).2.1
        (sellStep sp u q net tot).2.2.1 (sellStep sp u q net tot).2.2.2 := by
  match q with
  | [] => exact absurd rfl hq
  | (bu, bp) :: rest =>
    by_cases hle : bu ≤ u
    · refine ⟨Or.inr ?_, ?_⟩
      · simp [sellStep, hle]
      · rw [sellLoop, if_pos hu, if_pos hle]
        simp [sellStep, hle]
    · refine ⟨Or.inl ?_, ?_⟩
      · simp only [sellStep, if_neg hle]
        exact hu
      · rw [sellLoop, if_pos hu, if_neg hle]
        simp only [sellStep, if_neg hle]
        rw [sellLoop, if_neg (lt_irrefl 0)]

theorem sell_loop_measure_decreases_witness :
    ((sellStep 15 10 [((10:ℚ), 10)] 0 0).1 < 10 ∨
      (sellStep 15 10 [((10:ℚ), 10)] 0 0).2.1.length < ([((10:ℚ), 10)] : List Lot).length) ∧
    sellLoop 15 10 [((10:ℚ), 10)] 0 0 =
      sellLoop 15 (sellStep 15 10 [((10:ℚ), 10)] 0 0).1 (sellStep 15 10 [((10:ℚ), 10)] 0 0).2.1
        (sellStep 15 10 [((10:ℚ), 10)] 0 0).2.2.1 (sellStep 15 10 [((10:ℚ), 10)] 0 0).2.2.2 :=
  sell_loop_measure_decreases 15 10 [((10:ℚ), 10)] 0 0 (by norm_num) (by simp)

/-- C10: whenever `calculate_capital_gains` succeeds, the returned `totalGains`
is at least the returned `netGains` and is non-negative, since `totalGains`
accumulates exactly the non-negative subset of the per-lot gains whose full sum
is `netGains`. -/
theorem total_ge_net_and_nonneg (trades : List Trade) (n t : ℚ)
    (h : calculate_capital_gains trades = .ok (n, t)) : n ≤ t ∧ 0 ≤ t := by
  unfold calculate_capital_gains at h
  rw [runTrades_eq_spec] at h
  cases hs : specPerLotGains trades [] with
  | error e => rw [hs] at h; simp [Except.map] at h
  | ok r =>
    rw [hs] at h
    simp only [Except.map, Except.ok.injEq, Prod.mk.injEq, zero_add] at h
    obtain ⟨hn, ht⟩ := h
    subst hn
    subst ht
    constructor
    · exact round2_mono (sum_le_nonnegSum r.2)
    · exact round2_nonneg (nonnegSum_nonneg r.2)

theorem total_ge_net_and_nonneg_witness :
    calculate_capital_gains [⟨"BBB", 10, true, 100⟩, ⟨"BBB", 5, false, 40⟩] = .ok (-10, 0) ∧
    ((-10 : ℚ) ≤ 0 ∧ (0:ℚ) ≤ 0) := by
  have hcalc : calculate_capital_gains [⟨"BBB", 10, true, 100⟩, ⟨"BBB", 5, false, 40⟩]
      = .ok (-10, 0) := by
    norm_num [calculate_capital_gains, runTrades, processTrade, ensureKey, getQueue,
      modifyQueue, sellLoop, round2, pyRound]
  exact ⟨hcalc, total_ge_net_and_nonneg [⟨"BBB", 10, true, 100⟩, ⟨"BBB", 5, false, 40⟩]
    (-10) 0 hcalc⟩

theorem find_col_ok_iff : ∀ (heading : List String) (key : String) (i : Nat),
    find_col key heading = .ok i ↔
      ((∃ x, heading[i]? = some x ∧ strContains x key = true) ∧
        ∀ j, j < i → ∀ x, heading[j]? = some x → strContains x key = false) := by
  intro heading
  induction heading with
  | nil =>
    intro key i
    simp [find_col]
  | cons hd rest ih =>
    intro key i
    by_cases hc : strContains hd key
    · simp only [find_col, hc, if_true]
      cases i with
      | zero => simp [hc]
      | succ n =>
        constructor
        · intro h
          exact absurd h (by simp)
        · rintro ⟨-, hall⟩
          have h0 := hall 0 (Nat.succ_pos n) hd (by simp)
          rw [hc] at h0
          cases h0
    · simp only [find_col, Bool.eq_false_iff.mpr hc, Bool.false_eq_true, if_false]
      cases i with
      | zero =>
        constructor
        · intro h
          cases hf : find_col key rest <;> rw [hf] at h <;> simp [Except.map] at h
        · rintro ⟨⟨x, hx, hcx⟩, -⟩
          simp only [List.getElem?_cons_zero, Option.some.injEq] at hx
          subst hx
          exact absurd hcx hc
      | succ n =>
        have hmap : ((find_col key rest).map (· + 1) = .ok (n + 1)) ↔
            find_col key rest = .ok n := by
          cases hf : find_col key rest <;> simp [Except.map]
        rw [hmap, ih key n]
        constructor
        · rintro ⟨⟨x, hx, hcx⟩, hall⟩
          refine ⟨⟨x, by simpa using hx, hcx⟩, ?_⟩
          intro j hj x' hx'
          cases j with
          | zero =>
            simp only [List.getElem?_cons_zero, Option.some.injEq] at hx'
            subst hx'
            exact Bool.eq_false_iff.mpr hc
          | succ m =>
            exact hall m (Nat.lt_of_succ_lt_succ hj) x' (by simpa using hx')
        · rintro ⟨⟨x, hx, hcx⟩, hall⟩
          refine ⟨⟨x, by simpa using hx, hcx⟩, ?_⟩
          intro j hj x' hx'
          exact hall (j + 1) (Nat.succ_lt_succ hj) x' (by simpa using hx')

theorem find_col_error_iff : ∀ (heading : List String) (key : String),
    find_col key heading = .error .valueError ↔
      ∀ x ∈ heading, strContains x key = false := by
  intro heading
  induction heading with
  | nil => intro key; simp [find_col]
  | cons hd rest ih =>
    intro key
    by_cases hc : strContains hd key
    · simp [find_col, hc]
    · have hmap : ((find_col key rest).map (· + 1) = .error .valueError) ↔
          find_col key rest = .error .valueError := by
        cases hf : find_col key rest <;> simp [Except.map]
      simp only [find_col, Bool.eq_false_iff.mpr hc, Bool.false_eq_true, if_false]
      rw [hmap, ih]
      simp [List.forall_mem_cons, Bool.eq_false_iff.mpr hc]

/-- C8: the loader resolves its fields (the keywords "Symbol", "Total Value",
"Side", "Units" in `lex_csv`) by substring match against the header row:
`find_col key heading` returns `.ok i` exactly when cell `i` is the first header
cell containing `key` as a substring, and raises `ValueError` exactly when no
header cell contains `key`. -/
theorem find_col_first_substring_match (key : String) (heading : List String) (i : Nat) :
    (find_col key heading = .ok i ↔
      ((∃ x, heading[i]? = some x ∧ strContains x key = true) ∧
        ∀ j, j < i → ∀ x, heading[j]? = some x → strContains x key = false)) ∧
    (find_col key heading = .error .valueError ↔
      ∀ x ∈ heading, strContains x key = false) :=
  ⟨find_col_ok_iff heading key i, find_col_error_iff heading key⟩

/-- C9 counterexample: on a load failure (here `FileNotFoundError`) the CLI
prints only the diagnostic: its output contains no zero-gains result, refuting
the claim that it "treats the trade list as empty, yielding and printing zero
gains". -/
theorem cli_zero_gains_counterexample :
    cli_main (.error .fileNotFoundError) = .ok [.diagnostic .fileNotFoundError] ∧
    PrintEvent.netGains 0 ∉ [PrintEvent.diagnostic PyError.fileNotFoundError] ∧
    PrintEvent.totalGains 0 ∉ [PrintEvent.diagnostic PyError.fileNotFoundError] := by
  refine ⟨rfl, ?_, ?_⟩ <;> simp

/-- C9 (amended): on any caught load/parse failure (`FileNotFoundError`,
`StopIteration`, `ValueError`) the CLI prints only the diagnostic message; it
does not abort with a traceback, but it also does not compute or print a
(zero-)gains result. -/
theorem cli_diagnostic_only (e : PyError) (he : caught e = true) :
    cli_main (.error e) = .ok [.diagnostic e] := by
  simp [cli_main, he]

theorem cli_diagnostic_only_witness :
    caught .valueError = true ∧
      cli_main (.error .valueError) = .ok [.diagnostic .valueError] :=
  ⟨rfl, cli_diagnostic_only .valueError rfl⟩

theorem find_col_first_substring_match_witness :
    (find_col "Symbol" ["Stock Symbol", "Units"] = .ok 0 ↔
      ((∃ x, (["Stock Symbol", "Units"] : List String)[0]? = some x ∧
          strContains x "Symbol" = true) ∧
        ∀ j, j < 0 → ∀ x, (["Stock Symbol", "Units"] : List String)[j]? = some x →
          strContains x "Symbol" = false)) ∧
    (find_col "Symbol" ["Stock Symbol", "Units"] = .error .valueError ↔
      ∀ x ∈ (["Stock Symbol", "Units"] : List String), strContains x "Symbol" = false) :=
  find_col_first_substring_match "Symbol" ["Stock Symbol", "Units"] 0
